import Mathlib

/-!
Verification development for `toolbox/resource_indexer.py` (GodotVault).

The Python tool is a linear pipeline: enumerate eligible files of a project
tree (`retrieve_valid_filepaths`), classify them by extension, scan classified
text files line by line with one regular expression for embedded `res://`
resource locators, fold the extracted references into a cross-reference index
(`build_resources_index`), serialize the index (`save_index`) and print two
diagnostic reports (`diagnosis_bad_references`, `diagnosis_orphan_resources`).

This file shallowly embeds those functions.  The file system is passed in
explicitly: the `os.walk` result as a list of (root, file names) entries, the
contents of a file as a list of lines (lists of characters), and
`os.path.relpath(-, project_directory)` as a function argument.  Python dicts
are embedded as insertion-ordered association lists, which matches the
insertion-order semantics of `dict` that the tool relies on for its output
ordering.
-/

set_option maxRecDepth 10000

namespace ResourceIndexer

/-- The double-quote character (written by code point). -/
def dq : Char := Char.ofNat 34

/-- The single-quote character, as a one-character string (written by code point). -/
def sq : String := String.singleton (Char.ofNat 39)

/-- `leadMatch s l` decides whether the character list `s` is an initial segment
of `l`.  It is the basic block of the regex and `str.startswith` embeddings. -/
def leadMatch : List Char → List Char → Bool
  | [], _ => true
  | _ :: _, [] => false
  | a :: s, b :: l => a == b && leadMatch s l

/-- `hasSub sub hay` decides whether `sub` occurs contiguously anywhere in
`hay`; it embeds the unanchored `re.search` of a literal pattern, as used by
`retrieve_valid_filepaths` on the alternation `(\.import)|(\.git)`. -/
def hasSub (sub : List Char) : List Char → Bool
  | [] => leadMatch sub []
  | c :: t => leadMatch sub (c :: t) || hasSub sub t

/-- One entry of the `os.walk` enumeration: a directory path and the file
names directly inside it (directory names are unused by the tool). -/
structure WalkEntry where
  root : String
  files : List String
deriving Repr, DecidableEq

/-- The root-exclusion test of `retrieve_valid_filepaths`:
`re.search("(\.import)|(\.git)", root)`, i.e. the literal `.import` or `.git`
occurring anywhere in the directory path. -/
def excludedRoot (root : String) : Bool :=
  hasSub ".import".data root.data || hasSub ".git".data root.data

/-- `file_name[0] == '.'` of the source.  `os.walk` never yields an empty file
name, so the empty case (an `IndexError` in Python) is mapped to `false`. -/
def headIsDot : List Char → Bool
  | [] => false
  | c :: _ => c == '.'

/-- `os.path.join(root, file_name)` for the shapes produced by `os.walk`
(a non-absolute `file_name`): insert a `/` separator unless `root` already
ends with one; an empty `root` yields `file_name` itself. -/
def joinPath (root fn : String) : String :=
  match root.data.getLast? with
  | none => fn
  | some c => if c == '/' then root ++ fn else root ++ "/" ++ fn

/-- Embedding of `retrieve_valid_filepaths`.  `relp` stands for
`os.path.relpath(-, project_directory)` and `walk` for the `os.walk`
enumeration of the project directory.  A file is skipped when its directory
path contains `.import` or `.git`, when its name ends with `.import`, or when
its name starts with `.`; otherwise `./` + relative path is appended, in
enumeration order. -/
def retrieve_valid_filepaths (relp : String → String) (walk : List WalkEntry) : List String :=
  walk.flatMap (fun w =>
    w.files.filterMap (fun fn =>
      if excludedRoot w.root || ".import".data.isSuffixOf fn.data || headIsDot fn.data then none
      else some ("./" ++ relp (joinPath w.root fn))))

/-! ### Type classifier

`build_resources_index` registers nine extensions on the `mimetypes` registry
with types of the form `text/godot-*` and keeps a file exactly when
`mimetypes.guess_type` reports a type starting with `text/godot`.  No default
registry entry starts with `text/godot` and all registered keys are lower
case, so the test amounts to: the final extension computed by `guess_type`
(after the `suffix_map` rewriting loop and one `encodings_map` strip),
lower-cased, is one of the nine registered extensions. -/

/-- The nine extensions registered via `mimetypes.add_type`. -/
def godotExts : List String :=
  [".gd", ".cs", ".res", ".tres", ".tscn", ".gdshader", ".cfg", ".json", ".godot"]

/-- Final path component (`posixpath` basename), used by `splitext`. -/
def basenameOf (p : List Char) : List Char :=
  (p.reverse.takeWhile (fun c => c != '/')).reverse

/-- The extension part of `os.path.splitext` on a basename: the suffix from
the last dot, empty when there is no dot or when every character before the
last dot is itself a dot (leading dots mark hidden files, not extensions). -/
def extOf (b : List Char) : List Char :=
  let r := b.reverse
  let extRev := r.takeWhile (fun c => c != '.')
  match r.dropWhile (fun c => c != '.') with
  | [] => []
  | _ :: before => if before.all (fun c => c == '.') then [] else '.' :: extRev.reverse

/-- The base part of `os.path.splitext` on a basename. -/
def splitextBase (b : List Char) : List Char := b.take (b.length - (extOf b).length)

/-- The `suffix_map` of the `mimetypes` module. -/
def suffixMap : List (String × String) :=
  [(".svgz", ".svg.gz"), (".tgz", ".tar.gz"), (".taz", ".tar.gz"), (".tz", ".tar.gz"),
   (".tbz2", ".tar.bz2"), (".txz", ".tar.xz")]

/-- The keys of the `encodings_map` of the `mimetypes` module. -/
def encodingExts : List String := [".gz", ".Z", ".bz2", ".xz", ".br"]

/-- Lookup in `suffixMap`. -/
def lookupSuffix (e : String) : Option String :=
  (suffixMap.find? (fun kv => kv.1 == e)).map (fun kv => kv.2)

/-- The `while ext in suffix_map` rewriting loop of `mimetypes.guess_type`,
with fuel (each rewrite lands outside `suffix_map` after at most a few steps,
so `name.length + 4` steps of fuel are ample). -/
def suffixLoop : Nat → List Char → List Char
  | 0, name => name
  | f + 1, name =>
    match lookupSuffix (String.mk (extOf name)) with
    | some rep => suffixLoop f (splitextBase name ++ rep.data)
    | none => name

/-- The extension `mimetypes.guess_type` finally looks up: after the
`suffix_map` loop and one strip of a compression-encoding extension. -/
def finalExt (name : List Char) : List Char :=
  let n1 := suffixLoop (name.length + 4) name
  let e1 := extOf n1
  if encodingExts.contains (String.mk e1) then extOf (splitextBase n1) else e1

/-- Lower-casing of a character list (`guess_type` retries the lookup with the
lower-cased extension; all godot keys are lower case, so the exact-then-lower
double lookup reduces to one lower-cased lookup). -/
def lowerL (l : List Char) : List Char := l.map Char.toLower

/-- The classifier: `mime_type is not None and mime_type.startswith("text/godot")`
for the path handed to `mimetypes.guess_type`. -/
def classified (p : String) : Bool :=
  godotExts.contains (String.mk (lowerL (finalExt (basenameOf p.data))))

/-! ### Reference extractor

`resource_pattern = re.compile('"*?(res:/)(/[^"%]+\.[a-zA-Z0-9]+)"')` applied
with `findall` to each line.  The leading `"*?` is a lazy repetition: it
matches the empty string first, so an opening quote is never required for a
match, it only lets a match that `findall` reports start a few characters
earlier on a run of quotes without changing the captured groups or the resume
position.  The scanner below therefore tries the core
`res://  body  .  ext  "` at every position, left to right, resuming after the
closing quote of each match exactly as `findall` does. -/

/-- The literal scheme prefix `res://` (the concatenation of capture group 1
`res:/` and the leading `/` of capture group 2). -/
def resPre : List Char := ['r', 'e', 's', ':', '/', '/']

/-- The character class `[a-zA-Z0-9]` of the extension part. -/
def isAlnumAscii (c : Char) : Bool :=
  (decide ('a' ≤ c) && decide (c ≤ 'z')) ||
  (decide ('A' ≤ c) && decide (c ≤ 'Z')) ||
  (decide ('0' ≤ c) && decide (c ≤ '9'))

/-- The character class `[^"%]` of the path body. -/
def bodyChar (c : Char) : Bool := c != dq && c != '%'

/-- Full match of `[a-zA-Z0-9]+`. -/
def extAll (l : List Char) : Bool := !l.isEmpty && l.all isAlnumAscii

/-- Full match of `[^"%]*\.[a-zA-Z0-9]+` (the body continuation after its
first mandatory character), written as the obvious alternation automaton. -/
def bodyRest : List Char → Bool
  | [] => false
  | c :: t => (c == '.' && extAll t) || (bodyChar c && bodyRest t)

/-- Full match of `[^"%]+\.[a-zA-Z0-9]+` — the text standing between
`res://` and the closing quote of a match. -/
def sMatch : List Char → Bool
  | [] => false
  | c :: t => bodyChar c && bodyRest t

/-- Split a character list at its first double quote, returning the part
before it and the part after it; `none` when it holds no quote.  Because the
body class excludes `"`, every regex match closes at the first quote that
follows its `res://`. -/
def splitAtQuote : List Char → Option (List Char × List Char)
  | [] => none
  | c :: t =>
    if c == dq then some ([], t)
    else
      match splitAtQuote t with
      | none => none
      | some (S, after) => some (c :: S, after)

/-- The `findall` scanner, fueled (fuel bounds the number of scan steps; each
step either advances one position or jumps past a whole match, so the length
of the line is enough fuel).  Each hit contributes capture group 2, i.e.
`'/' :: S` where `S` stands between `res://` and the closing quote. -/
def scanAux : Nat → List Char → List (List Char)
  | 0, _ => []
  | _ + 1, [] => []
  | f + 1, c :: rest =>
    if leadMatch resPre (c :: rest) then
      match splitAtQuote (rest.drop 5) with
      | some (S, after) =>
        if sMatch S then ('/' :: S) :: scanAux f after else scanAux f rest
      | none => scanAux f rest
    else scanAux f rest

/-- `resource_pattern.findall(line)`, projected on capture group 2 (the only
group the tool uses). -/
def scanLine (l : List Char) : List (List Char) := scanAux l.length l

/-! ### Index data model

Python represents an index entry as a dict with keys `valid`, `references`,
`count`, `by`; the two creation sites insert those keys in different orders
(`valid, references, count, by` for a scanned source file and
`valid, count, references, by` for a lazily created reference target), which
only shows in the key order of the serialized output, not in any lookup.  The
entry is embedded as a record with one fixed field order.  `by` and the dict
field named `at` are Lean keywords, hence the primed field names. -/

/-- One element of an entry's `references` list:
`{"line": ..., "path": ..., "valid": ...}`. -/
structure Ref where
  line : Nat
  path : String
  valid : Bool
deriving Repr, DecidableEq

/-- One element of an entry's `by` list: `{"source": ..., "at": ...}`. -/
structure ByRef where
  source : String
  at' : Nat
deriving Repr, DecidableEq

/-- An index entry. -/
structure Entry where
  valid : Bool
  references : List Ref
  count : Nat
  by' : List ByRef
deriving Repr, DecidableEq

/-- The index: a Python dict from path to entry, embedded as an
insertion-ordered association list (keys are unique by construction, since an
entry is only ever appended after a failed lookup). -/
abbrev Index := List (String × Entry)

/-- Dict lookup (`index[path]`, `path in index`). -/
def find? : Index → String → Option Entry
  | [], _ => none
  | (k, e) :: t, k' => if k' = k then some e else find? t k'

/-- Dict update of the entry at key `k` (a no-op when `k` is absent; the tool
only updates keys it has just looked up). -/
def setE (idx : Index) (k : String) (f : Entry → Entry) : Index :=
  idx.map (fun kv => if kv.1 = k then (kv.1, f kv.2) else kv)

/-- One extracted reference of the run: source path, 0-based line number and
target path, in extraction order. -/
structure RawRef where
  src : String
  line : Nat
  tgt : String
deriving Repr, DecidableEq

/-- The references extracted from one classified file: for each line (0-based
counter, in file order) and each `findall` hit on it (left to right), the
target path `"." + group2`. -/
def fileRefs (path : String) (lines : List (List Char)) : List RawRef :=
  lines.enum.flatMap (fun le =>
    (scanLine le.2).map (fun g => { src := path, line := le.1, tgt := String.mk ('.' :: g) }))

/-- Lines 79-82 of the source: ensure the current classified file has an
entry, `valid = True` either way (fresh entry `{valid: True, references: [],
count: 0, by: []}` or `index[path]["valid"] = True` on an existing one). -/
def ensureSource (path : String) (idx : Index) : Index :=
  match find? idx path with
  | none => idx ++ [(path, { valid := true, references := [], count := 0, by' := [] })]
  | some _ => setE idx path (fun e => { e with valid := true })

/-- Lines 93-101 of the source: create the target entry with `count = 1` and
the freshly computed validity, or increment the count of an existing one. -/
def addRefTgt (vf : List String) (tgt : String) (idx : Index) : Index :=
  match find? idx tgt with
  | none =>
    idx ++ [(tgt, { valid := decide (tgt ∈ vf), references := [], count := 1, by' := [] })]
  | some _ => setE idx tgt (fun e => { e with count := e.count + 1 })

/-- Lines 89-112 of the source, for one extracted reference: compute the
target entry via `addRefTgt` (the `valid_res` there is the membership of the
target in `valid_files`), then append to the source entry  `references` and
to the target entry  `by`. -/
def addRef (vf : List String) (src : String) (ln : Nat) (tgt : String) (idx : Index) : Index :=
  let idx2 := setE (addRefTgt vf tgt idx) src (fun e =>
    { e with references :=
        e.references ++ [{ line := ln, path := tgt, valid := decide (tgt ∈ vf) }] })
  setE idx2 tgt (fun e => { e with by' := e.by' ++ [{ source := src, at' := ln }] })

/-- `f"{project_directory}/{path}"`. -/
def absOf (pd path : String) : String := pd ++ "/" ++ path

/-- The whole per-file block of `build_resources_index`: ensure the source
entry, then fold `addRef` over the file's references (the nested
line-by-line, match-by-match loops of the source, flattened in the identical
scan order by `fileRefs`). -/
def processFile (vf : List String) (path : String) (lines : List (List Char)) (idx : Index) :
    Index :=
  (fileRefs path lines).foldl (fun i r => addRef vf r.src r.line r.tgt i) (ensureSource path idx)

/-- Embedding of `build_resources_index`.  `fs` maps an absolute path to the
lines of the file it names. -/
def build_resources_index (pd : String) (fs : String → List (List Char)) (vf : List String) :
    Index :=
  vf.foldl (fun idx path =>
    if classified (absOf pd path) then processFile vf path (fs (absOf pd path)) idx else idx) []

/-- The references one enumerated path contributes to the run: none unless the
path is classified. -/
def refsOf (pd : String) (fs : String → List (List Char)) (p : String) : List RawRef :=
  if classified (absOf pd p) then fileRefs p (fs (absOf pd p)) else []

/-- All references extracted across the whole run, in extraction order. -/
def allRefs (pd : String) (fs : String → List (List Char)) (vf : List String) : List RawRef :=
  vf.flatMap (refsOf pd fs)

/-- Number of extracted references whose target is `t`. -/
def countTgt (t : String) (rs : List RawRef) : Nat := (rs.filter (fun r => r.tgt == t)).length

/-- The paths `build_resources_index` actually opens and scans: the classified
members of `valid_files`. -/
def scannedFiles (pd : String) (vf : List String) : List String :=
  vf.filter (fun p => classified (absOf pd p))

/-! ### Reporters -/

/-- `key.startswith("./.import")` and friends. -/
def startsWithL (pre s : String) : Bool := leadMatch pre.data s.data

/-- The warning line printed for an invalid entry under the import-metadata
namespace. -/
def warnLine (k : String) : String := "Warning ! Referencing an import " ++ sq ++ k ++ sq

/-- The error line printed for any other invalid entry. -/
def errLine (k : String) (n : Nat) : String :=
  "The resource " ++ sq ++ k ++ sq ++ " is not valid. Referenced " ++ toString n ++
    " time(s) at :"

/-- One contributing (source, line) line of the bad-reference report. -/
def byLine (r : ByRef) : String := "\t" ++ r.source ++ ":" ++ toString r.at'

/-- Embedding of `diagnosis_bad_references`, as the list of printed lines.
Note that in the source the `for ref in data["by"]` loop sits inside
`if not data["valid"]` but outside the import/non-import conditional, so the
contributing pairs are printed after the warning line as well as after the
error line. -/
def diagnosis_bad_references (idx : Index) : List String :=
  "--- Bad References to Resources ---" ::
  idx.flatMap (fun kv =>
    if kv.2.valid then []
    else
      (if startsWithL "./.import" kv.1 then [warnLine kv.1] else [errLine kv.1 kv.2.count]) ++
        kv.2.by'.map byLine)

/-- Header line of the orphan report. -/
def orphanHeader : String := "--- Orphan resources ---"

/-- Caveat line of the orphan report. -/
def orphanCaveat : String :=
  "!! Beware, a null reference count doesn" ++ sq ++
    "t assess that a resource is orphan. It might be indirectly referenced " ++
    "(script inheritance or resource path computation in scripts) !!"

/-- Embedding of `diagnosis_orphan_resources`, as the list of printed lines:
the entries of the index whose `count` is zero, in index order. -/
def diagnosis_orphan_resources (idx : Index) : List String :=
  orphanHeader :: orphanCaveat ::
  (idx.filter (fun kv => kv.2.count == 0)).map (fun kv => sq ++ kv.1 ++ sq)

/-! ### Persister

`save_index` writes `json.dumps(index, indent=4)`.  The serializer below
mirrors that layout (4-space indentation per nesting level, keys in dict
insertion order) with the record's fixed field order standing for the dict key
order of the source's first creation site. -/

/-- JSON string escaping for the characters that can occur here. -/
def jsonStringEscape (s : String) : String :=
  s.data.foldl (fun acc c =>
    if c == dq then acc ++ "\\" ++ String.singleton dq
    else if c == '\\' then acc ++ "\\\\"
    else if c == '\n' then acc ++ "\\n"
    else if c == '\t' then acc ++ "\\t"
    else if c == '\r' then acc ++ "\\r"
    else acc.push c) ""

/-- A JSON string token. -/
def jstr (s : String) : String :=
  String.singleton dq ++ jsonStringEscape s ++ String.singleton dq

/-- A JSON boolean token. -/
def jbool (b : Bool) : String := if b then "true" else "false"

/-- One serialized element of a `references` list. -/
def serRef (r : Ref) : String :=
  "            \x7b\n" ++
  "                " ++ jstr "line" ++ ": " ++ toString r.line ++ ",\n" ++
  "                " ++ jstr "path" ++ ": " ++ jstr r.path ++ ",\n" ++
  "                " ++ jstr "valid" ++ ": " ++ jbool r.valid ++ "\n" ++
  "            \x7d"

/-- One serialized element of a `by` list. -/
def serByRef (r : ByRef) : String :=
  "            \x7b\n" ++
  "                " ++ jstr "source" ++ ": " ++ jstr r.source ++ ",\n" ++
  "                " ++ jstr "at" ++ ": " ++ toString r.at' ++ "\n" ++
  "            \x7d"

/-- A serialized JSON array at entry-field depth. -/
def serList (items : List String) : String :=
  if items.isEmpty then "[]"
  else "[\n" ++ String.intercalate ",\n" items ++ "\n        ]"

/-- One serialized index entry. -/
def serEntry (e : Entry) : String :=
  "\x7b\n" ++
  "        " ++ jstr "valid" ++ ": " ++ jbool e.valid ++ ",\n" ++
  "        " ++ jstr "references" ++ ": " ++ serList (e.references.map serRef) ++ ",\n" ++
  "        " ++ jstr "count" ++ ": " ++ toString e.count ++ ",\n" ++
  "        " ++ jstr "by" ++ ": " ++ serList (e.by'.map serByRef) ++ "\n" ++
  "    \x7d"

/-- Embedding of `save_index`: the exact string written to the output file. -/
def serializeIndex (idx : Index) : String :=
  if idx.isEmpty then "\x7b\x7d"
  else
    "\x7b\n" ++
    String.intercalate ",\n"
      (idx.map (fun kv => "    " ++ jstr kv.1 ++ ": " ++ serEntry kv.2)) ++
    "\n\x7d"

/-- The full indexing run as a function of the enumeration, the path
arithmetic and the file contents: enumerate, then build. -/
def run_index (pd : String) (relp : String → String) (walk : List WalkEntry)
    (fs : String → List (List Char)) : Index :=
  build_resources_index pd fs (retrieve_valid_filepaths relp walk)

/-- The diagnostic lines the run prints: the bad-reference report always, the
orphan report when the flag is set. -/
def run_reports (idx : Index) (orphan : Bool) : List String :=
  diagnosis_bad_references idx ++ (if orphan then diagnosis_orphan_resources idx else [])



/-! ### Derived definitions and concrete inputs used by the claims -/

/-- The `count` field of the entry at `t`, zero when there is none. -/
def entryCount (idx : Index) (t : String) : Nat :=
  match find? idx t with
  | some e => e.count
  | none => 0

/-- Invariant of the partially built index `idx` with respect to the
enumerated file set `vf` and the references `rs` extracted so far. -/
def Inv (vf : List String) (rs : List RawRef) (idx : Index) : Prop :=
  (∀ k e, find? idx k = some e → e.valid = decide (k ∈ vf)) ∧
  (∀ k e, find? idx k = some e → e.by'.length = e.count) ∧
  (∀ k e, find? idx k = some e → ∀ r ∈ e.references,
      r.valid = decide (r.path ∈ vf) ∧ (find? idx r.path).isSome) ∧
  (∀ t, countTgt t rs = entryCount idx t)

/-- Witness project directory. -/
def pdW : String := "/p"

/-- A scene line holding one quoted reference to `res://b.png`. -/
def lineRefB : List Char :=
  "[ext_resource path=".data ++ [dq] ++ "res://b.png".data ++ [dq] ++ "]".data

/-- A second line holding another quoted reference to `res://b.png`. -/
def lineRefB2 : List Char := "texture = ".data ++ [dq] ++ "res://b.png".data ++ [dq]

/-- A line holding one quoted reference to `res://s.gd`. -/
def lineRefS : List Char := "load(".data ++ [dq] ++ "res://s.gd".data ++ [dq] ++ ")".data

/-- Witness enumeration: a scene, an image, a script. -/
def vfW : List String := ["./a.tscn", "./b.png", "./s.gd"]

/-- Witness file contents: the scene references `b.png` twice and `s.gd` once;
the script is empty. -/
def fsW : String → List (List Char) := fun p =>
  if p = "/p/./a.tscn" then [lineRefB, lineRefB2, lineRefS] else []

/-- Enumeration holding a single unclassified, unreferenced image. -/
def vfC : List String := ["./c.png"]

/-- Empty file contents. -/
def fsEmpty : String → List (List Char) := fun _ => []

/-- The entry the build gives `./b.png` in the witness project. -/
def entryB : Entry := ⟨true, [], 2, [⟨"./a.tscn", 0⟩, ⟨"./a.tscn", 1⟩]⟩

/-- The entry the build gives `./a.tscn` in the witness project. -/
def entryA : Entry :=
  ⟨true, [⟨0, "./b.png", true⟩, ⟨1, "./b.png", true⟩, ⟨2, "./s.gd", true⟩], 0, []⟩

/-- The first reference recorded on the scene entry of the witness project. -/
def refB0 : Ref := ⟨0, "./b.png", true⟩

/-- A scene line referencing a path under the import-metadata namespace. -/
def lineRefImp : List Char := "tex = ".data ++ [dq] ++ "res://.import/x.png".data ++ [dq]

/-- Enumeration of the import-reference project. -/
def vfI : List String := ["./a.tscn"]

/-- File contents of the import-reference project. -/
def fsI : String → List (List Char) := fun p => if p = "/p/./a.tscn" then [lineRefImp] else []

/-- The entry the build gives `./.import/x.png` in the import-reference
project. -/
def entryImp : Entry := ⟨false, [], 1, [⟨"./a.tscn", 0⟩]⟩

/-- Modelled from the claim wording, for comparison with the code's scanner: a
Reference would arise exactly from a locator *enclosed in quotes* — an opening
quote, the scheme prefix, a path body ending in a dotted extension, and a
closing quote. -/
def specScanAux : Nat → List Char → List (List Char)
  | 0, _ => []
  | _ + 1, [] => []
  | f + 1, c :: rest =>
    if c == dq && leadMatch resPre rest then
      match splitAtQuote (rest.drop 6) with
      | some (S, after) =>
        if sMatch S then ('/' :: S) :: specScanAux f after else specScanAux f rest
      | none => specScanAux f rest
    else specScanAux f rest

/-- The per-line extraction the claim describes (opening quote required). -/
def specScanLine (l : List Char) : List (List Char) := specScanAux l.length l

/-- Walk of the witness project. -/
def walkW : List WalkEntry := [⟨"/p", ["a.tscn", "b.png", "s.gd"]⟩]

/-- Relative-path arithmetic of the witness project. -/
def relpW : String → String := fun s => (s.data.drop 3).asString

/-! ### Association-list lemmas -/

theorem setE_cons (k0 : String) (e0 : Entry) (t : Index) (k : String) (f : Entry → Entry) :
    setE ((k0, e0) :: t) k f =
      (if k0 = k then (k0, f e0) else (k0, e0)) :: setE t k f := rfl

theorem find?_cons (k0 : String) (e0 : Entry) (t : Index) (k' : String) :
    find? ((k0, e0) :: t) k' = if k' = k0 then some e0 else find? t k' := rfl

theorem find?_setE (idx : Index) (k : String) (f : Entry → Entry) (k' : String) :
    find? (setE idx k f) k' = if k' = k then (find? idx k).map f else find? idx k' := by
  induction idx with
  | nil => simp [find?, setE]
  | cons kv t ih =>
    obtain ⟨k0, e0⟩ := kv
    rw [setE_cons]
    by_cases h1 : k0 = k
    · subst h1
      by_cases h2 : k' = k0
      · subst h2
        simp [find?_cons]
      · simp [find?_cons, h2, ih]
    · have h1' : ¬ k = k0 := fun h => h1 h.symm
      by_cases h2 : k' = k0
      · subst h2
        have hk : ¬ k' = k := fun h => h1 (h ▸ rfl)
        simp [find?_cons, h1, hk]
      · simp [find?_cons, h1, h1', h2, ih]

theorem find?_append (idx : Index) (k0 : String) (e0 : Entry) (k' : String) :
    find? (idx ++ [(k0, e0)]) k' =
      (match find? idx k' with
       | some e => some e
       | none => if k' = k0 then some e0 else none) := by
  induction idx with
  | nil => simp [find?, find?_cons]
  | cons kv t ih =>
    obtain ⟨k1, e1⟩ := kv
    by_cases h : k' = k1
    · simp [List.cons_append, find?_cons, h]
    · simp [List.cons_append, find?_cons, h, ih]

theorem mem_of_find? {idx : Index} {k : String} {e : Entry} (h : find? idx k = some e) :
    (k, e) ∈ idx := by
  induction idx with
  | nil => simp [find?] at h
  | cons kv t ih =>
    obtain ⟨k0, e0⟩ := kv
    by_cases h1 : k = k0
    · subst h1
      rw [find?_cons, if_pos rfl] at h
      cases h
      exact List.mem_cons_self _ _
    · rw [find?_cons, if_neg h1] at h
      exact List.mem_cons_of_mem _ (ih h)

theorem find?_ensureSource (p : String) (idx : Index) (k : String) :
    find? (ensureSource p idx) k =
      (match find? idx k with
       | some e => some (if k = p then { e with valid := true } else e)
       | none =>
         if k = p then some { valid := true, references := [], count := 0, by' := [] }
         else none) := by
  unfold ensureSource
  cases hp : find? idx p with
  | none =>
    rw [find?_append]
    cases hk : find? idx k with
    | none => simp
    | some e =>
      by_cases h : k = p
      · subst h
        rw [hk] at hp
        cases hp
      · simp [h]
  | some e0 =>
    rw [find?_setE]
    by_cases h : k = p
    · subst h
      rw [hp]
      simp [hp]
    · cases hk : find? idx k <;> simp [h, hk]

theorem find?_addRefTgt (vf : List String) (t : String) (idx : Index) (k : String) :
    find? (addRefTgt vf t idx) k =
      (match find? idx k with
       | some e => some (if k = t then { e with count := e.count + 1 } else e)
       | none =>
         if k = t then
           some { valid := decide (t ∈ vf), references := [], count := 1, by' := [] }
         else none) := by
  cases ht : find? idx t with
  | none =>
    simp only [addRefTgt, ht]
    rw [find?_append]
    by_cases h1 : k = t
    · subst h1
      rw [ht]
    · cases hk : find? idx k <;> simp [h1, hk]
  | some e0 =>
    simp only [addRefTgt, ht]
    rw [find?_setE]
    by_cases h1 : k = t
    · subst h1
      rw [ht]
      simp
    · cases hk : find? idx k <;> simp [h1, hk]

theorem find?_addRef (vf : List String) (s : String) (ln : Nat) (t : String) (idx : Index)
    (k : String) :
    find? (addRef vf s ln t idx) k =
      Option.map
        (fun e => if k = t then { e with by' := e.by' ++ [{ source := s, at' := ln }] } else e)
        (Option.map
          (fun e =>
            if k = s then
              { e with references :=
                  e.references ++ [{ line := ln, path := t, valid := decide (t ∈ vf) }] }
            else e)
          (match find? idx k with
           | some e => some (if k = t then { e with count := e.count + 1 } else e)
           | none =>
             if k = t then
               some { valid := decide (t ∈ vf), references := [], count := 1, by' := [] }
             else none)) := by
  unfold addRef
  simp only
  rw [find?_setE]
  by_cases h1 : k = t
  · subst h1
    rw [if_pos rfl, find?_setE]
    by_cases h2 : k = s
    · subst h2
      rw [if_pos rfl, find?_addRefTgt]
      cases hk : find? idx k <;> simp [hk]
    · rw [if_neg h2, find?_addRefTgt]
      cases hk : find? idx k <;> simp [hk, h2]
  · rw [if_neg h1, find?_setE]
    by_cases h2 : k = s
    · subst h2
      rw [if_pos rfl, find?_addRefTgt]
      cases hk : find? idx k <;> simp [hk, h1]
    · rw [if_neg h2, find?_addRefTgt]
      cases hk : find? idx k <;> simp [hk, h1, h2]

/-! ### The build invariant

One induction over the build fold carries every per-entry fact the claims
need: the `valid` field of any entry always equals membership of its key in
`valid_files`; `by` length always equals `count`; every recorded reference
carries the membership validity of its target, whose entry exists; and the
`count` of each key equals the number of references extracted so far that
target it. -/

theorem countTgt_append (t : String) (rs : List RawRef) (r : RawRef) :
    countTgt t (rs ++ [r]) = countTgt t rs + (if r.tgt = t then 1 else 0) := by
  by_cases h : r.tgt = t <;> simp [countTgt, List.filter_append, h]

theorem isSome_ensureSource {idx : Index} {k : String} (p : String)
    (h : (find? idx k).isSome) : (find? (ensureSource p idx) k).isSome := by
  rw [find?_ensureSource]
  cases hk : find? idx k with
  | none => simp [hk] at h
  | some e => simp

theorem self_isSome_ensureSource (p : String) (idx : Index) :
    (find? (ensureSource p idx) p).isSome := by
  rw [find?_ensureSource]
  cases hk : find? idx p <;> simp

theorem isSome_addRef {idx : Index} {k : String} (vf : List String) (s : String) (ln : Nat)
    (t : String) (h : (find? idx k).isSome) : (find? (addRef vf s ln t idx) k).isSome := by
  rw [find?_addRef]
  cases hk : find? idx k with
  | none => simp [hk] at h
  | some e => simp

theorem tgt_isSome_addRef (vf : List String) (s : String) (ln : Nat) (t : String)
    (idx : Index) : (find? (addRef vf s ln t idx) t).isSome := by
  rw [find?_addRef]
  cases hk : find? idx t <;> simp

theorem entryCount_ensureSource (p : String) (idx : Index) (t : String) :
    entryCount (ensureSource p idx) t = entryCount idx t := by
  unfold entryCount
  rw [find?_ensureSource]
  cases hk : find? idx t with
  | none => by_cases h : t = p <;> simp [h]
  | some e => by_cases h : t = p <;> simp [h]

theorem entryCount_addRef (vf : List String) (s : String) (ln : Nat) (t : String)
    (idx : Index) (t' : String) :
    entryCount (addRef vf s ln t idx) t' = entryCount idx t' + (if t' = t then 1 else 0) := by
  by_cases h1 : t' = t
  · subst h1
    by_cases h2 : t' = s
    · subst h2
      cases hk : find? idx t' <;> simp [entryCount, find?_addRef, hk]
    · cases hk : find? idx t' <;> simp [entryCount, find?_addRef, hk, h2]
  · by_cases h2 : t' = s
    · subst h2
      cases hk : find? idx t' <;> simp [entryCount, find?_addRef, hk, h1]
    · cases hk : find? idx t' <;> simp [entryCount, find?_addRef, hk, h1, h2]

theorem inv_ensureSource {vf : List String} {rs : List RawRef} {idx : Index} {p : String}
    (hp : p ∈ vf) (h : Inv vf rs idx) : Inv vf rs (ensureSource p idx) := by
  obtain ⟨hV, hB, hR, hC⟩ := h
  refine ⟨?_, ?_, ?_, ?_⟩
  · intro k e hk
    rw [find?_ensureSource] at hk
    cases hfk : find? idx k with
    | none =>
      rw [hfk] at hk
      by_cases h1 : k = p
      · subst h1
        rw [if_pos rfl] at hk
        cases hk
        simp [hp]
      · rw [if_neg h1] at hk
        cases hk
    | some e0 =>
      rw [hfk] at hk
      cases hk
      by_cases h1 : k = p
      · subst h1
        simp [hV _ _ hfk, hp]
      · simp [h1, hV _ _ hfk]
  · intro k e hk
    rw [find?_ensureSource] at hk
    cases hfk : find? idx k with
    | none =>
      rw [hfk] at hk
      by_cases h1 : k = p
      · subst h1
        rw [if_pos rfl] at hk
        cases hk
        rfl
      · rw [if_neg h1] at hk
        cases hk
    | some e0 =>
      rw [hfk] at hk
      cases hk
      by_cases h1 : k = p <;> simp [h1, hB _ _ hfk]
  · intro k e hk
    rw [find?_ensureSource] at hk
    cases hfk : find? idx k with
    | none =>
      rw [hfk] at hk
      by_cases h1 : k = p
      · subst h1
        rw [if_pos rfl] at hk
        cases hk
        intro r hr
        simp at hr
      · rw [if_neg h1] at hk
        cases hk
    | some e0 =>
      rw [hfk] at hk
      cases hk
      by_cases h1 : k = p
      · subst h1
        intro r hr
        simp at hr
        obtain ⟨h2, h3⟩ := hR _ _ hfk r hr
        exact ⟨h2, isSome_ensureSource _ h3⟩
      · simp only [if_neg h1]
        intro r hr
        obtain ⟨h2, h3⟩ := hR _ _ hfk r hr
        exact ⟨h2, isSome_ensureSource _ h3⟩
  · intro t
    rw [entryCount_ensureSource]
    exact hC t

theorem addRef_entry {vf : List String} {s : String} {ln : Nat} {t : String} {idx : Index}
    {k : String} {e : Entry} (hk : find? (addRef vf s ln t idx) k = some e) :
    (∃ e0, find? idx k = some e0 ∧
      e.valid = e0.valid ∧
      e.count = e0.count + (if k = t then 1 else 0) ∧
      e.references = e0.references ++
        (if k = s then [{ line := ln, path := t, valid := decide (t ∈ vf) }] else []) ∧
      e.by' = e0.by' ++ (if k = t then [{ source := s, at' := ln }] else [])) ∨
    (find? idx k = none ∧ k = t ∧
      e.valid = decide (t ∈ vf) ∧
      e.count = 1 ∧
      e.references =
        (if k = s then [{ line := ln, path := t, valid := decide (t ∈ vf) }] else []) ∧
      e.by' = [{ source := s, at' := ln }]) := by
  rw [find?_addRef] at hk
  by_cases h1 : k = t
  · subst h1
    by_cases h2 : k = s
    · subst h2
      cases hfk : find? idx k <;> rw [hfk] at hk <;> simp at hk ⊢ <;> simp [← hk]
    · cases hfk : find? idx k <;> rw [hfk] at hk <;> simp [h2] at hk ⊢ <;> simp [← hk, h2]
  · by_cases h2 : k = s
    · subst h2
      cases hfk : find? idx k <;> rw [hfk] at hk <;> simp [h1] at hk ⊢ <;> simp [← hk, h1]
    · cases hfk : find? idx k <;> rw [hfk] at hk <;> simp [h1, h2] at hk ⊢ <;>
        simp [← hk, h1, h2]

theorem inv_addRef {vf : List String} {rs : List RawRef} {idx : Index}
    (s : String) (ln : Nat) (t : String) (h : Inv vf rs idx) :
    Inv vf (rs ++ [{ src := s, line := ln, tgt := t }]) (addRef vf s ln t idx) := by
  obtain ⟨hV, hB, hR, hC⟩ := h
  refine ⟨?_, ?_, ?_, ?_⟩
  · intro k e hk
    rcases addRef_entry hk with ⟨e0, hfk, hv, _, _, _⟩ | ⟨hfk, h1, hv, _, _, _⟩
    · rw [hv]
      exact hV _ _ hfk
    · subst h1
      rw [hv]
  · intro k e hk
    rcases addRef_entry hk with ⟨e0, hfk, _, hc, _, hb⟩ | ⟨hfk, h1, _, hc, _, hb⟩
    · rw [hb, hc, List.length_append, hB _ _ hfk]
      by_cases h1 : k = t <;> simp [h1]
    · rw [hb, hc]
      rfl
  · intro k e hk
    rcases addRef_entry hk with ⟨e0, hfk, _, _, hrefs, _⟩ | ⟨hfk, h1, _, _, hrefs, _⟩
    · rw [hrefs]
      intro r hr
      rcases List.mem_append.mp hr with hr1 | hr2
      · obtain ⟨ha, hb'⟩ := hR _ _ hfk r hr1
        exact ⟨ha, isSome_addRef vf s ln t hb'⟩
      · by_cases h2 : k = s
        · rw [if_pos h2] at hr2
          simp at hr2
          subst hr2
          exact ⟨rfl, tgt_isSome_addRef vf s ln t idx⟩
        · rw [if_neg h2] at hr2
          simp at hr2
    · rw [hrefs]
      intro r hr
      by_cases h2 : k = s
      · rw [if_pos h2] at hr
        simp at hr
        subst hr
        exact ⟨rfl, tgt_isSome_addRef vf s ln t idx⟩
      · rw [if_neg h2] at hr
        simp at hr
  · intro t'
    rw [countTgt_append, entryCount_addRef, ← hC t']
    by_cases h : t' = t
    · subst h
      simp
    · have h' : ¬ ((⟨s, ln, t⟩ : RawRef).tgt = t') := fun hh => h hh.symm
      simp [h, h']

theorem inv_foldAddRefs {vf : List String} (l : List RawRef) {rs : List RawRef} {idx : Index}
    (h : Inv vf rs idx) :
    Inv vf (rs ++ l) (l.foldl (fun i r => addRef vf r.src r.line r.tgt i) idx) := by
  induction l generalizing rs idx with
  | nil => simpa using h
  | cons r l ih =>
    have h1 := inv_addRef r.src r.line r.tgt h
    have h2 := ih h1
    simpa [List.append_assoc] using h2

theorem inv_processFile {vf : List String} {rs : List RawRef} {idx : Index} {p : String}
    (hp : p ∈ vf) (lines : List (List Char)) (h : Inv vf rs idx) :
    Inv vf (rs ++ fileRefs p lines) (processFile vf p lines idx) :=
  inv_foldAddRefs _ (inv_ensureSource hp h)

theorem inv_build_aux (pd : String) (fs : String → List (List Char)) {vf : List String}
    (l : List String) (hsub : ∀ p ∈ l, p ∈ vf) {rs : List RawRef} {idx : Index}
    (h : Inv vf rs idx) :
    Inv vf (rs ++ l.flatMap (refsOf pd fs))
      (l.foldl (fun idx path =>
        if classified (absOf pd path) then processFile vf path (fs (absOf pd path)) idx
        else idx) idx) := by
  induction l generalizing rs idx with
  | nil => simpa using h
  | cons p l ih =>
    simp only [List.foldl_cons, List.flatMap_cons]
    by_cases hc : classified (absOf pd p)
    · rw [if_pos hc]
      have h1 := inv_processFile (hsub p (List.mem_cons_self p l)) (fs (absOf pd p)) h
      have h2 := ih (fun q hq => hsub q (List.mem_cons_of_mem _ hq)) h1
      simpa [refsOf, hc, List.append_assoc] using h2
    · rw [if_neg hc]
      have h2 := ih (fun q hq => hsub q (List.mem_cons_of_mem _ hq)) h
      simpa [refsOf, hc] using h2

theorem inv_build (pd : String) (fs : String → List (List Char)) (vf : List String) :
    Inv vf (allRefs pd fs vf) (build_resources_index pd fs vf) := by
  have h0 : Inv vf [] [] := by
    refine ⟨?_, ?_, ?_, ?_⟩ <;> intro k <;> simp [find?, countTgt, entryCount]
  have h1 := inv_build_aux pd fs vf (fun p hp => hp) h0
  simpa [allRefs, build_resources_index] using h1

/-! ### Key presence through the build -/

theorem isSome_foldAddRefs (vf : List String) (l : List RawRef) {idx : Index} {k : String}
    (h : (find? idx k).isSome) :
    (find? (l.foldl (fun i r => addRef vf r.src r.line r.tgt i) idx) k).isSome := by
  induction l generalizing idx with
  | nil => simpa using h
  | cons r l ih => exact ih (isSome_addRef vf r.src r.line r.tgt h)

theorem isSome_processFile (vf : List String) (p : String) (lines : List (List Char))
    {idx : Index} {k : String} (h : (find? idx k).isSome) :
    (find? (processFile vf p lines idx) k).isSome :=
  isSome_foldAddRefs vf _ (isSome_ensureSource p h)

theorem self_isSome_processFile (vf : List String) (p : String) (lines : List (List Char))
    (idx : Index) : (find? (processFile vf p lines idx) p).isSome :=
  isSome_foldAddRefs vf _ (self_isSome_ensureSource p idx)

theorem isSome_foldBuild (pd : String) (fs : String → List (List Char)) (vf : List String)
    (l : List String) {idx : Index} {k : String} (h : (find? idx k).isSome) :
    (find? (l.foldl (fun idx path =>
        if classified (absOf pd path) then processFile vf path (fs (absOf pd path)) idx
        else idx) idx) k).isSome := by
  induction l generalizing idx with
  | nil => simpa using h
  | cons p l ih =>
    simp only [List.foldl_cons]
    by_cases hc : classified (absOf pd p)
    · rw [if_pos hc]
      exact ih (isSome_processFile vf p _ h)
    · rw [if_neg hc]
      exact ih h

theorem isSome_build_of_classified (pd : String) (fs : String → List (List Char))
    {vf : List String} {p : String} (hp : p ∈ vf) (hc : classified (absOf pd p) = true) :
    (find? (build_resources_index pd fs vf) p).isSome := by
  obtain ⟨l1, l2, rfl⟩ := List.append_of_mem hp
  unfold build_resources_index
  rw [List.foldl_append, List.foldl_cons, if_pos hc]
  exact isSome_foldBuild pd fs _ l2 (self_isSome_processFile _ p _ _)

/-! ### Claims C1, C5, C6, C7, C10 -/

/-- Claim C1, as stated, is false: `./c.png` is in the enumerated file set but,
being neither classified as a godot text type nor referenced by anyone,
`build_resources_index` gives it no entry at all, let alone one with
`valid = true`. -/
theorem claim1_counterexample :
    "./c.png" ∈ vfC ∧ find? (build_resources_index pdW fsEmpty vfC) "./c.png" = none := by
  constructor
  · decide
  · decide

/-- Claim C1, amended: a path of the enumerated set F receives an entry with
`valid = true` when it is classified; an unclassified member of F may have no
entry, but any entry keyed by a member of F does have `valid = true`. -/
theorem claim1_amended (pd : String) (fs : String → List (List Char)) (vf : List String)
    (p : String) (hp : p ∈ vf) :
    (classified (absOf pd p) = true →
      ∃ e, find? (build_resources_index pd fs vf) p = some e ∧ e.valid = true) ∧
    (∀ e, find? (build_resources_index pd fs vf) p = some e → e.valid = true) := by
  constructor
  · intro hc
    obtain ⟨e, he⟩ := Option.isSome_iff_exists.mp (isSome_build_of_classified pd fs hp hc)
    refine ⟨e, he, ?_⟩
    rw [(inv_build pd fs vf).1 _ _ he]
    simp [hp]
  · intro e he
    rw [(inv_build pd fs vf).1 _ _ he]
    simp [hp]

/-- Witness for `claim1_amended` on the concrete witness project. -/
theorem claim1_witness :
    ∃ e, find? (build_resources_index pdW fsW vfW) "./a.tscn" = some e ∧ e.valid = true :=
  (claim1_amended pdW fsW vfW "./a.tscn" (by decide)).1 (by decide)

/-- Claim C5: the `count` field of any index entry equals the number of
references extracted across the whole run whose target is that entry's key. -/
theorem claim5_count_exact (pd : String) (fs : String → List (List Char)) (vf : List String)
    (t : String) (e : Entry) (h : find? (build_resources_index pd fs vf) t = some e) :
    e.count = countTgt t (allRefs pd fs vf) := by
  have hC := (inv_build pd fs vf).2.2.2 t
  unfold entryCount at hC
  rw [h] at hC
  exact hC.symm

/-- Witness for `claim5_count_exact`: `./b.png` is referenced twice. -/
theorem claim5_witness : entryB.count = countTgt "./b.png" (allRefs pdW fsW vfW) :=
  claim5_count_exact pdW fsW vfW "./b.png" entryB (by decide)

/-- Claim C6: in every index entry, the length of the `by` list equals the
`count` field. -/
theorem claim6_by_length (pd : String) (fs : String → List (List Char)) (vf : List String)
    (k : String) (e : Entry) (h : find? (build_resources_index pd fs vf) k = some e) :
    e.by'.length = e.count :=
  (inv_build pd fs vf).2.1 _ _ h

/-- Witness for `claim6_by_length` at the entry of `./b.png`. -/
theorem claim6_witness : entryB.by'.length = entryB.count :=
  claim6_by_length pdW fsW vfW "./b.png" entryB (by decide)

/-- Claim C7: a path that is both a classified member of the enumerated set F
and the target of some extracted reference ends with a `valid` flag equal to
its membership in F — the scan order (source first or target first) never
enters the result. -/
theorem claim7_tiebreak (pd : String) (fs : String → List (List Char)) (vf : List String)
    (p : String) (hp : p ∈ vf) (hc : classified (absOf pd p) = true)
    (href : ∃ r ∈ allRefs pd fs vf, r.tgt = p) :
    ∃ e, find? (build_resources_index pd fs vf) p = some e ∧ e.valid = decide (p ∈ vf) := by
  obtain ⟨e, he⟩ := Option.isSome_iff_exists.mp (isSome_build_of_classified pd fs hp hc)
  exact ⟨e, he, (inv_build pd fs vf).1 _ _ he⟩

/-- Witness for `claim7_tiebreak`: `./s.gd` is classified, enumerated and
referenced by the scene. -/
theorem claim7_witness :
    ∃ e, find? (build_resources_index pdW fsW vfW) "./s.gd" = some e ∧
      e.valid = decide ("./s.gd" ∈ vfW) :=
  claim7_tiebreak pdW fsW vfW "./s.gd" (by decide) (by decide) (by decide)

/-- Claim C10: the `valid` flag recorded inside any element of a `references`
list agrees with the `valid` flag of the index entry keyed by that element's
target path. -/
theorem claim10_ref_valid_consistent (pd : String) (fs : String → List (List Char))
    (vf : List String) (k : String) (e : Entry)
    (h : find? (build_resources_index pd fs vf) k = some e) (r : Ref)
    (hr : r ∈ e.references) :
    ∃ e', find? (build_resources_index pd fs vf) r.path = some e' ∧ e'.valid = r.valid := by
  obtain ⟨hv, hs⟩ := (inv_build pd fs vf).2.2.1 _ _ h r hr
  obtain ⟨e', he'⟩ := Option.isSome_iff_exists.mp hs
  refine ⟨e', he', ?_⟩
  rw [(inv_build pd fs vf).1 _ _ he', hv]

/-- Witness for `claim10_ref_valid_consistent` at the scene entry and its first
recorded reference. -/
theorem claim10_witness :
    ∃ e', find? (build_resources_index pdW fsW vfW) refB0.path = some e' ∧
      e'.valid = refB0.valid :=
  claim10_ref_valid_consistent pdW fsW vfW "./a.tscn" entryA (by decide) refB0 (by decide)

/-! ### Claims C2 and C3: the reporters -/

theorem find?_ensureSource_other {p : String} {idx : Index} {k : String} (h : ¬ k = p)
    (hk : find? idx k = none) : find? (ensureSource p idx) k = none := by
  rw [find?_ensureSource, hk]
  simp [h]

theorem find?_addRef_none {vf : List String} {s : String} {ln : Nat} {t : String}
    {idx : Index} {k : String} (h : ¬ k = t) (hk : find? idx k = none) :
    find? (addRef vf s ln t idx) k = none := by
  rw [find?_addRef, hk]
  simp [h]

theorem none_foldAddRefs {vf : List String} (l : List RawRef) {idx : Index} {k : String}
    (hk : find? idx k = none) (hl : ∀ r ∈ l, ¬ r.tgt = k) :
    find? (l.foldl (fun i r => addRef vf r.src r.line r.tgt i) idx) k = none := by
  induction l generalizing idx with
  | nil => simpa using hk
  | cons r l ih =>
    simp only [List.foldl_cons]
    apply ih
    · exact find?_addRef_none (fun h => hl r (List.mem_cons_self r l) h.symm) hk
    · intro q hq
      exact hl q (List.mem_cons_of_mem _ hq)

theorem none_processFile {vf : List String} {p : String} {lines : List (List Char)}
    {idx : Index} {k : String} (hne : ¬ k = p) (hk : find? idx k = none)
    (hl : ∀ r ∈ fileRefs p lines, ¬ r.tgt = k) :
    find? (processFile vf p lines idx) k = none :=
  none_foldAddRefs _ (find?_ensureSource_other hne hk) hl

theorem none_foldBuild (pd : String) (fs : String → List (List Char)) (vf : List String)
    (l : List String) {idx : Index} {p : String}
    (hc : classified (absOf pd p) = false) (hk : find? idx p = none)
    (hr : ∀ r ∈ l.flatMap (refsOf pd fs), ¬ r.tgt = p) :
    find? (l.foldl (fun idx path =>
        if classified (absOf pd path) then processFile vf path (fs (absOf pd path)) idx
        else idx) idx) p = none := by
  induction l generalizing idx with
  | nil => simpa using hk
  | cons q l ih =>
    simp only [List.foldl_cons, List.flatMap_cons] at hr ⊢
    by_cases hq : classified (absOf pd q)
    · rw [if_pos hq]
      apply ih
      · apply none_processFile
        · intro h
          rw [h, hq] at hc
          cases hc
        · exact hk
        · intro r hrr
          exact hr r (List.mem_append_left _ (by simpa [refsOf, hq] using hrr))
      · intro r hrr
        exact hr r (List.mem_append_right _ hrr)
    · rw [if_neg hq]
      apply ih hk
      intro r hrr
      exact hr r (List.mem_append_right _ hrr)

/-- Claim C2, as stated, is false: `./c.png` is present in the enumerated tree
and never the target of any extracted reference, the orphan flag prints the
index entries of zero count — yet its path line is absent from the report,
because an unclassified, unreferenced file never receives an index entry. -/
theorem claim2_counterexample :
    "./c.png" ∈ vfC ∧ allRefs pdW fsEmpty vfC = [] ∧
      (sq ++ "./c.png" ++ sq) ∉ diagnosis_orphan_resources (build_resources_index pdW fsEmpty vfC) := by
  refine ⟨by decide, by decide, by decide⟩

/-- Claim C2, amended: the orphan report prints the path of every index entry
whose `count` is zero; an enumerated file that is neither classified nor
referenced has no index entry at all, hence no line. -/
theorem claim2_amended :
    (∀ (idx : Index) (k : String) (e : Entry), find? idx k = some e → e.count = 0 →
      (sq ++ k ++ sq) ∈ diagnosis_orphan_resources idx) ∧
    (∀ (pd : String) (fs : String → List (List Char)) (vf : List String) (p : String),
      classified (absOf pd p) = false → (∀ r ∈ allRefs pd fs vf, ¬ r.tgt = p) →
      find? (build_resources_index pd fs vf) p = none) := by
  constructor
  · intro idx k e h hc
    have hmem : (k, e) ∈ idx := mem_of_find? h
    have hfil : (k, e) ∈ idx.filter (fun kv => kv.2.count == 0) :=
      List.mem_filter.mpr ⟨hmem, by simp [hc]⟩
    have hmap : (sq ++ k ++ sq) ∈
        (idx.filter (fun kv => kv.2.count == 0)).map (fun kv => sq ++ kv.1 ++ sq) :=
      List.mem_map.mpr ⟨(k, e), hfil, rfl⟩
    exact List.mem_cons_of_mem _ (List.mem_cons_of_mem _ hmap)
  · intro pd fs vf p hc hr
    unfold build_resources_index
    exact none_foldBuild pd fs vf vf hc rfl (by simpa [allRefs] using hr)

/-- Witness for `claim2_amended`: the never-referenced scene `./a.tscn` is
printed, while the unclassified unreferenced `./c.png` has no entry. -/
theorem claim2_witness :
    (sq ++ "./a.tscn" ++ sq) ∈ diagnosis_orphan_resources (build_resources_index pdW fsW vfW) ∧
      find? (build_resources_index pdW fsEmpty vfC) "./c.png" = none :=
  ⟨claim2_amended.1 _ "./a.tscn" entryA (by decide) (by decide),
   claim2_amended.2 pdW fsEmpty vfC "./c.png" (by decide) (by decide)⟩

/-- Claim C3, as stated, is false on its last conjunct: for the invalid entry
`./.import/x.png` the report prints the Warning line and then still prints the
contributing (source, line) pair, because the `by` loop of the source sits
outside the import/non-import conditional. -/
theorem claim3_counterexample :
    diagnosis_bad_references (build_resources_index pdW fsI vfI) =
      ["--- Bad References to Resources ---", warnLine "./.import/x.png",
        byLine ⟨"./a.tscn", 0⟩] := by
  decide

/-- Claim C3, amended: for every invalid entry the report prints the Warning
line when the key falls under `./.import`, the error line otherwise, and the
contributing (source, line) pairs in both cases. -/
theorem claim3_amended (idx : Index) (k : String) (e : Entry)
    (h : find? idx k = some e) (hv : e.valid = false) :
    (startsWithL "./.import" k = true → warnLine k ∈ diagnosis_bad_references idx) ∧
    (startsWithL "./.import" k = false → errLine k e.count ∈ diagnosis_bad_references idx) ∧
    (∀ r ∈ e.by', byLine r ∈ diagnosis_bad_references idx) := by
  have hmem : (k, e) ∈ idx := mem_of_find? h
  refine ⟨?_, ?_, ?_⟩
  · intro hs
    refine List.mem_cons_of_mem _ (List.mem_flatMap.mpr ⟨(k, e), hmem, ?_⟩)
    simp [hv, hs]
  · intro hs
    refine List.mem_cons_of_mem _ (List.mem_flatMap.mpr ⟨(k, e), hmem, ?_⟩)
    simp [hv, hs]
  · intro r hr
    refine List.mem_cons_of_mem _ (List.mem_flatMap.mpr ⟨(k, e), hmem, ?_⟩)
    simp only [hv]
    exact List.mem_append_right _ (List.mem_map.mpr ⟨r, hr, rfl⟩)

/-- Witness for `claim3_amended` at the import-reference project. -/
theorem claim3_witness :
    warnLine "./.import/x.png" ∈ diagnosis_bad_references (build_resources_index pdW fsI vfI) ∧
      byLine ⟨"./a.tscn", 0⟩ ∈ diagnosis_bad_references (build_resources_index pdW fsI vfI) := by
  have h := claim3_amended (build_resources_index pdW fsI vfI) "./.import/x.png" entryImp
    (by decide) (by decide)
  exact ⟨h.1 (by decide), h.2.2 _ (by decide)⟩

/-! ### Claim C4: the extraction pattern -/

theorem leadMatch_append (s t : List Char) : leadMatch s (s ++ t) = true := by
  induction s with
  | nil => rfl
  | cons c s ih => simp [leadMatch, ih]

theorem exists_of_leadMatch : ∀ {s l : List Char}, leadMatch s l = true → ∃ t, l = s ++ t := by
  intro s
  induction s with
  | nil => exact fun h => ⟨_, rfl⟩
  | cons c s ih =>
    intro l h
    cases l with
    | nil => simp [leadMatch] at h
    | cons b l =>
      rw [leadMatch, Bool.and_eq_true, beq_iff_eq] at h
      obtain ⟨h1, h2⟩ := h
      obtain ⟨t, rfl⟩ := ih h2
      exact ⟨t, by rw [h1]; rfl⟩

theorem splitAtQuote_eq : ∀ {l S a : List Char}, splitAtQuote l = some (S, a) →
    l = S ++ dq :: a ∧ ∀ c ∈ S, ¬ c = dq := by
  intro l
  induction l with
  | nil => intro S a h; simp [splitAtQuote] at h
  | cons c t ih =>
    intro S a h
    rw [splitAtQuote] at h
    by_cases hc : c = dq
    · rw [if_pos (by simp [hc])] at h
      cases h
      subst hc
      exact ⟨rfl, by simp⟩
    · rw [if_neg (by simp [hc])] at h
      cases hs : splitAtQuote t with
      | none => rw [hs] at h; cases h
      | some pair =>
        obtain ⟨S', a'⟩ := pair
        rw [hs] at h
        cases h
        obtain ⟨h1, h2⟩ := ih hs
        refine ⟨by rw [h1]; rfl, ?_⟩
        intro x hx
        rcases List.mem_cons.mp hx with rfl | hx'
        · exact hc
        · exact h2 x hx'

theorem splitAtQuote_of_clean : ∀ (S v : List Char), (∀ c ∈ S, ¬ c = dq) →
    splitAtQuote (S ++ dq :: v) = some (S, v) := by
  intro S
  induction S with
  | nil => intro v _; simp [splitAtQuote]
  | cons c S ih =>
    intro v h
    have hc : ¬ c = dq := h c (List.mem_cons_self c S)
    rw [List.cons_append, splitAtQuote, if_neg (by simp [hc]),
      ih v (fun x hx => h x (List.mem_cons_of_mem _ hx))]

theorem isAlnumAscii_ne_quote {c : Char} (h : isAlnumAscii c = true) : ¬ c = dq := by
  intro hq
  subst hq
  exact absurd h (by decide)

theorem bodyRest_no_quote : ∀ {t : List Char}, bodyRest t = true → ∀ c ∈ t, ¬ c = dq := by
  intro t
  induction t with
  | nil => intro h; simp [bodyRest] at h
  | cons c t ih =>
    intro h x hx
    rw [bodyRest, Bool.or_eq_true] at h
    rcases List.mem_cons.mp hx with rfl | hx'
    · rcases h with h1 | h2
      · rw [Bool.and_eq_true, beq_iff_eq] at h1
        rw [h1.1]
        decide
      · rw [Bool.and_eq_true] at h2
        have := h2.1
        simp [bodyChar] at this
        exact this.1
    · rcases h with h1 | h2
      · rw [Bool.and_eq_true] at h1
        have := h1.2
        rw [extAll, Bool.and_eq_true, List.all_eq_true] at this
        exact isAlnumAscii_ne_quote (this.2 x hx')
      · rw [Bool.and_eq_true] at h2
        exact ih h2.2 x hx'

theorem sMatch_no_quote {S : List Char} (h : sMatch S = true) : ∀ c ∈ S, ¬ c = dq := by
  cases S with
  | nil => simp
  | cons c t =>
    rw [sMatch, Bool.and_eq_true] at h
    intro x hx
    rcases List.mem_cons.mp hx with rfl | hx'
    · have := h.1
      simp [bodyChar] at this
      exact this.1
    · exact bodyRest_no_quote h.2 x hx'

theorem scanAux_congr : ∀ (f1 f2 : Nat) (l : List Char), l.length ≤ f1 → l.length ≤ f2 →
    scanAux f1 l = scanAux f2 l := by
  intro f1
  induction f1 with
  | zero =>
    intro f2 l h1 h2
    have hl : l = [] := List.eq_nil_of_length_eq_zero (Nat.le_zero.mp h1)
    subst hl
    cases f2 <;> rfl
  | succ f1 ih =>
    intro f2 l h1 h2
    cases l with
    | nil => cases f2 <;> rfl
    | cons c rest =>
      cases f2 with
      | zero => simp at h2
      | succ f2 =>
        simp only [List.length_cons] at h1 h2
        have h1' : rest.length ≤ f1 := by omega
        have h2' : rest.length ≤ f2 := by omega
        rw [scanAux, scanAux]
        by_cases hm : leadMatch resPre (c :: rest) = true
        · rw [if_pos hm, if_pos hm]
          cases hs : splitAtQuote (rest.drop 5) with
          | none => exact ih f2 rest h1' h2'
          | some pair =>
            obtain ⟨S, a⟩ := pair
            dsimp only
            have hlen : (rest.drop 5).length ≤ rest.length := by
              rw [List.length_drop]
              omega
            have ha : a.length < (rest.drop 5).length := by
              rw [(splitAtQuote_eq hs).1]
              simp
              omega
            by_cases hsm : sMatch S = true
            · rw [if_pos hsm, if_pos hsm, ih f2 a (by omega) (by omega)]
            · rw [if_neg hsm, if_neg hsm]
              exact ih f2 rest h1' h2'
        · rw [if_neg hm, if_neg hm]
          exact ih f2 rest h1' h2'

theorem scanAux_sound : ∀ (f : Nat) (l g : List Char), g ∈ scanAux f l →
    ∃ u S v, l = u ++ resPre ++ S ++ dq :: v ∧ sMatch S = true ∧ g = '/' :: S := by
  intro f
  induction f with
  | zero => intro l g h; simp [scanAux] at h
  | succ f ih =>
    intro l g h
    cases l with
    | nil => simp [scanAux] at h
    | cons c rest =>
      rw [scanAux] at h
      by_cases hm : leadMatch resPre (c :: rest) = true
      · rw [if_pos hm] at h
        cases hs : splitAtQuote (rest.drop 5) with
        | none =>
          rw [hs] at h
          obtain ⟨u, S, v, he, hsm, hg⟩ := ih rest g h
          exact ⟨c :: u, S, v, by rw [List.cons_append, List.cons_append, List.cons_append, he],
            hsm, hg⟩
        | some pair =>
          obtain ⟨S0, a⟩ := pair
          rw [hs] at h
          dsimp only at h
          obtain ⟨t, ht⟩ := exists_of_leadMatch hm
          have hdrop : rest.drop 5 = t := by
            have : (c :: rest).drop 6 = (resPre ++ t).drop 6 := by rw [ht]
            simpa [resPre] using this
          have hct : c :: rest = resPre ++ S0 ++ dq :: a := by
            rw [ht, ← hdrop, (splitAtQuote_eq hs).1]
            rfl
          by_cases hsm : sMatch S0 = true
          · rw [if_pos hsm] at h
            rcases List.mem_cons.mp h with rfl | htail
            · exact ⟨[], S0, a, by rw [List.nil_append]; exact hct, hsm, rfl⟩
            · obtain ⟨u', S', v', he, hsm', hg⟩ := ih a g htail
              refine ⟨resPre ++ S0 ++ dq :: u', S', v', ?_, hsm', hg⟩
              rw [hct, he]
              simp
          · rw [if_neg hsm] at h
            obtain ⟨u, S, v, he, hsm', hg⟩ := ih rest g h
            exact ⟨c :: u, S, v,
              by rw [List.cons_append, List.cons_append, List.cons_append, he], hsm', hg⟩
      · rw [if_neg hm] at h
        obtain ⟨u, S, v, he, hsm', hg⟩ := ih rest g h
        exact ⟨c :: u, S, v, by rw [List.cons_append, List.cons_append, List.cons_append, he],
          hsm', hg⟩

theorem scanAux_start (f : Nat) (S v : List Char) (hS : sMatch S = true) :
    scanAux (f + 1) (resPre ++ S ++ dq :: v) = ('/' :: S) :: scanAux f v := by
  show scanAux (f + 1) ('r' :: 'e' :: 's' :: ':' :: '/' :: '/' :: (S ++ dq :: v)) =
    ('/' :: S) :: scanAux f v
  rw [scanAux]
  rw [if_pos (by simp [resPre, leadMatch])]
  have hd : ('e' :: 's' :: ':' :: '/' :: '/' :: (S ++ dq :: v) : List Char).drop 5 =
      S ++ dq :: v := rfl
  rw [hd, splitAtQuote_of_clean S v (sMatch_no_quote hS)]
  dsimp only
  rw [if_pos hS]

theorem scanLine_step : ∀ (u S v : List Char),
    (∀ p, p < u.length → leadMatch resPre ((u ++ resPre ++ S ++ dq :: v).drop p) = false) →
    sMatch S = true →
    scanLine (u ++ resPre ++ S ++ dq :: v) = ('/' :: S) :: scanLine v := by
  intro u
  induction u with
  | nil =>
    intro S v hu hS
    unfold scanLine
    rw [List.nil_append]
    have hlen : (resPre ++ S ++ dq :: v : List Char).length = (S.length + v.length + 6) + 1 := by
      simp [resPre]
      omega
    rw [hlen, scanAux_start _ _ _ hS]
    congr 1
    exact scanAux_congr _ _ v (by omega) (le_refl _)
  | cons c u ih =>
    intro S v hu hS
    have h0 : ¬ leadMatch resPre (c :: (u ++ resPre ++ S ++ dq :: v)) = true := by
      have h := hu 0 (by simp)
      rw [List.drop_zero, List.cons_append, List.cons_append, List.cons_append] at h
      exact fun hc => Bool.false_ne_true (h.symm.trans hc)
    unfold scanLine
    rw [List.cons_append, List.cons_append, List.cons_append, List.length_cons, scanAux,
      if_neg h0]
    have hu' : ∀ p, p < u.length →
        leadMatch resPre ((u ++ resPre ++ S ++ dq :: v).drop p) = false := by
      intro p hp
      have := hu (p + 1) (by simp; omega)
      rw [List.cons_append, List.cons_append, List.cons_append, List.drop_succ_cons] at this
      exact this
    have := ih S v hu' hS
    unfold scanLine at this
    exact this

/-- Claim C4, as stated, is false: on the line `x=res://b.png"` the code's
scanner emits one Reference although the locator is not enclosed in quotes
(there is no opening quote, and the claim's quoted-occurrence extraction
finds nothing), because the lazy `"*?` prefix of the pattern makes the opening
quote optional while the closing quote stays mandatory. -/
theorem claim4_counterexample :
    scanLine ("x=res://b.png".data ++ [dq]) = ["/b.png".data] ∧
      specScanLine ("x=res://b.png".data ++ [dq]) = [] :=
  ⟨by decide, by decide⟩

/-- Claim C4, amended: the extractor emits a Reference exactly for the
left-to-right, non-overlapping matches of `res://` + body + dotted extension +
*closing* quote; an opening quote is not required.  Soundness: every emitted
group comes from such an occurrence.  Completeness: when no match can start
strictly before the occurrence, the first occurrence emits exactly one
Reference and scanning resumes after its closing quote. -/
theorem claim4_amended :
    (∀ l g, g ∈ scanLine l →
      ∃ u S v, l = u ++ resPre ++ S ++ dq :: v ∧ sMatch S = true ∧ g = '/' :: S) ∧
    (∀ u S v,
      (∀ p, p < u.length → leadMatch resPre ((u ++ resPre ++ S ++ dq :: v).drop p) = false) →
      sMatch S = true →
      scanLine (u ++ resPre ++ S ++ dq :: v) = ('/' :: S) :: scanLine v) :=
  ⟨fun l g h => scanAux_sound l.length l g h, scanLine_step⟩

/-- Witness for `claim4_amended` on concrete lines. -/
theorem claim4_witness :
    (∃ u S v, ("x=res://b.png".data ++ [dq]) = u ++ resPre ++ S ++ dq :: v ∧
      sMatch S = true ∧ "/b.png".data = '/' :: S) ∧
    scanLine (("p=".data ++ [dq]) ++ resPre ++ "a.png".data ++ dq :: " x".data) =
      ('/' :: "a.png".data) :: scanLine " x".data :=
  ⟨claim4_amended.1 _ _ (by decide),
   claim4_amended.2 ("p=".data ++ [dq]) "a.png".data " x".data (by decide) (by decide)⟩

/-! ### Claim C8: the enumeration excludes metadata and hidden files -/

theorem hasSub_of_leadMatch {sub l : List Char} (h : leadMatch sub l = true) :
    hasSub sub l = true := by
  cases l with
  | nil => exact h
  | cons c t =>
    rw [hasSub, h]
    rfl

theorem hasSub_of_infix (sub a b : List Char) : hasSub sub (a ++ sub ++ b) = true := by
  induction a with
  | nil =>
    rw [List.nil_append]
    exact hasSub_of_leadMatch (leadMatch_append sub b)
  | cons c a ih =>
    rw [List.cons_append, List.cons_append, hasSub, ih, Bool.or_true]

theorem build_congr_aux (pd : String) (fs fs' : String → List (List Char)) (vf : List String) :
    ∀ (l : List String) (idx : Index),
    (∀ p ∈ l, classified (absOf pd p) = true → fs (absOf pd p) = fs' (absOf pd p)) →
    l.foldl (fun idx path =>
      if classified (absOf pd path) then processFile vf path (fs (absOf pd path)) idx
      else idx) idx =
    l.foldl (fun idx path =>
      if classified (absOf pd path) then processFile vf path (fs' (absOf pd path)) idx
      else idx) idx := by
  intro l
  induction l with
  | nil => intro idx _; rfl
  | cons p l ih =>
    intro idx h
    simp only [List.foldl_cons]
    by_cases hc : classified (absOf pd p)
    · rw [if_pos hc, if_pos hc, h p (List.mem_cons_self p l) hc]
      exact ih _ (fun q hq => h q (List.mem_cons_of_mem _ hq))
    · rw [if_neg hc, if_neg hc]
      exact ih _ (fun q hq => h q (List.mem_cons_of_mem _ hq))

/-- Claim C8: (1) every path of the enumerated set F comes from a walk entry
whose directory survives the `.import`/`.git` search and a file name that
neither ends in `.import` nor starts with `.`; (2) a directory path containing
`.import` or `.git` — in particular any path under such a directory — never
survives that search; (3) the build reads file contents only at classified
members of F, so files outside F are never scanned. -/
theorem claim8_exclusions :
    (∀ (relp : String → String) (walk : List WalkEntry) (s : String),
      s ∈ retrieve_valid_filepaths relp walk →
      ∃ w ∈ walk, ∃ fn ∈ w.files, excludedRoot w.root = false ∧
        (".import".data.isSuffixOf fn.data) = false ∧ headIsDot fn.data = false ∧
        s = "./" ++ relp (joinPath w.root fn)) ∧
    (∀ root : String,
      ((∃ a b, root.data = a ++ ".import".data ++ b) ∨
       (∃ a b, root.data = a ++ ".git".data ++ b)) → excludedRoot root = true) ∧
    (∀ (pd : String) (fs fs' : String → List (List Char)) (vf : List String),
      (∀ p ∈ vf, classified (absOf pd p) = true → fs (absOf pd p) = fs' (absOf pd p)) →
      build_resources_index pd fs vf = build_resources_index pd fs' vf) := by
  refine ⟨?_, ?_, ?_⟩
  · intro relp walk s hs
    unfold retrieve_valid_filepaths at hs
    obtain ⟨w, hw, hfn⟩ := List.mem_flatMap.mp hs
    obtain ⟨fn, hfnmem, hfneq⟩ := List.mem_filterMap.mp hfn
    by_cases hcond : (excludedRoot w.root || ".import".data.isSuffixOf fn.data ||
        headIsDot fn.data) = true
    · rw [if_pos hcond] at hfneq
      cases hfneq
    · rw [if_neg hcond] at hfneq
      simp only [Bool.or_eq_true, not_or, Bool.not_eq_true] at hcond
      obtain ⟨⟨h1, h2⟩, h3⟩ := hcond
      cases hfneq
      exact ⟨w, hw, fn, hfnmem, h1, h2, h3, rfl⟩
  · intro root h
    unfold excludedRoot
    rcases h with ⟨a, b, hab⟩ | ⟨a, b, hab⟩
    · rw [hab, hasSub_of_infix]
      rfl
    · rw [hab, hasSub_of_infix, Bool.or_true]
  · intro pd fs fs' vf h
    unfold build_resources_index
    exact build_congr_aux pd fs fs' vf vf [] h

/-- Witness for `claim8_exclusions` on concrete inputs. -/
theorem claim8_witness :
    (∃ w ∈ walkW, ∃ fn ∈ w.files, excludedRoot w.root = false ∧
      (".import".data.isSuffixOf fn.data) = false ∧ headIsDot fn.data = false ∧
      "./a.tscn" = "./" ++ relpW (joinPath w.root fn)) ∧
    excludedRoot "/p/.import" = true ∧
    build_resources_index pdW fsEmpty vfC = build_resources_index pdW fsEmpty vfC :=
  ⟨claim8_exclusions.1 relpW walkW "./a.tscn" (by decide),
   claim8_exclusions.2.1 "/p/.import" (Or.inl ⟨"/p/".data, [], by decide⟩),
   claim8_exclusions.2.2 pdW fsEmpty fsEmpty vfC (fun p _ _ => rfl)⟩

/-! ### Claim C9: determinism -/

/-- Claim C9: the whole pipeline is a pure function of the project directory,
the enumeration, the path arithmetic and the file contents — two runs over
equal inputs produce equal indexes, byte-identical serialized output and equal
diagnostic lines. -/
theorem claim9_deterministic (pd : String) (relp relp' : String → String)
    (walk walk' : List WalkEntry) (fs fs' : String → List (List Char)) (orphan : Bool)
    (hrelp : relp = relp') (hwalk : walk = walk') (hfs : fs = fs') :
    run_index pd relp walk fs = run_index pd relp' walk' fs' ∧
    serializeIndex (run_index pd relp walk fs) = serializeIndex (run_index pd relp' walk' fs') ∧
    run_reports (run_index pd relp walk fs) orphan =
      run_reports (run_index pd relp' walk' fs') orphan := by
  subst hrelp
  subst hwalk
  subst hfs
  exact ⟨rfl, rfl, rfl⟩

/-- Witness for `claim9_deterministic` at the witness project. -/
theorem claim9_witness :
    run_index pdW relpW walkW fsW = run_index pdW relpW walkW fsW ∧
    serializeIndex (run_index pdW relpW walkW fsW) =
      serializeIndex (run_index pdW relpW walkW fsW) ∧
    run_reports (run_index pdW relpW walkW fsW) true =
      run_reports (run_index pdW relpW walkW fsW) true :=
  claim9_deterministic pdW relpW relpW walkW walkW fsW fsW true rfl rfl rfl

end ResourceIndexer
